import Mathlib

/-!
Verification of the lib-bdd FFI layer.

Shallow embedding of `src/lib.rs`: a reference-counted FFI wrapper around the
biodivine `lib-bdd` engine.  The wrapper maintains a `Manager` (variable
universe, reference count, running node total, node budget) and handles
(`RcBdd`) for diagrams; every diagram-producing operation funnels through
`bdd_t::from_bdd`, which charges the diagram's node count against the budget
and aborts the process on overflow.  `bdd_pickcube` walks the diagram's node
graph directly to extract one satisfying cube.

The engine's diagram representation (from the `biodivine_lib_bdd` crate, an
external collaborator of this repository) is embedded only as far as
`lib.rs` depends on it: a `Bdd` is a vector of nodes sorted so that children
precede parents, node 0 is the `false` terminal, node 1 the `true` terminal,
the last node is the root, terminals carry `var = num_vars`, and along each
edge the variable index strictly increases.  These representation facts are
collected in the well-formedness predicate `BddWF`; all theorems about the
traversal assume it.

Process abort (`std::process::abort`) is modelled by `Option.none`; raw
pointers by explicit state (lists of live objects); the null data pointer of
`bdd_assignment_t` by `Option.none`.
-/

namespace LibBddFfi

/-- Tri-state value `OptBool` from `lib.rs`: a tri-state value, `None` meaning don't-care. -/
inductive OptBool where
  | None
  | False
  | True
deriving DecidableEq, Repr

/-- Buffer type `bdd_assignment_t` from `lib.rs`: a foreign-owned buffer of tri-state
values.  A null `data` pointer is modelled by `Option.none`. -/
structure bdd_assignment_t where
  data : Option (List OptBool)
  len : Nat
deriving DecidableEq, Repr

/-- One node of the engine's `Bdd` vector: a decision variable index and the
indices of the low (false-branch) and high (true-branch) successors. -/
structure BddNode where
  var : Nat
  low : Nat
  high : Nat
deriving DecidableEq, Repr

/-- The engine's diagram value: the variable count of its universe and the
node vector (node 0 = `false` terminal, node 1 = `true` terminal, last node =
root). -/
structure Bdd where
  numVars : Nat
  nodes : List BddNode
deriving DecidableEq, Repr

namespace Bdd

/-- Node count `Bdd::size()`: the length of the node vector. -/
def size (f : Bdd) : Nat := f.nodes.length

/-- Dereference a node pointer (an index into the node vector). -/
def node (f : Bdd) (p : Nat) : BddNode := f.nodes.getD p ⟨0, 0, 0⟩

/-- Test `Bdd::is_false()`: the diagram is the `false` constant iff the vector
holds only the `false` terminal. -/
def isFalse (f : Bdd) : Bool := f.nodes.length == 1

/-- Root pointer `Bdd::root_pointer()`: the last node of the vector. -/
def root (f : Bdd) : Nat := f.nodes.length - 1

end Bdd

/-- Well-formedness of an engine diagram, as documented by the engine and
relied upon by `lib.rs`: node 0 is the `false` terminal, node 1 (when
present) the `true` terminal, terminals carry `var = numVars`; every decision
node has `var < numVars`, both successors at strictly smaller indices,
distinct successors (reducedness), and strictly increasing variable indices
along both edges. -/
def BddWF (f : Bdd) : Prop :=
  1 ≤ f.size ∧
  f.node 0 = ⟨f.numVars, 0, 0⟩ ∧
  (2 ≤ f.size → f.node 1 = ⟨f.numVars, 1, 1⟩) ∧
  ∀ i, i < f.size → 2 ≤ i →
    (f.node i).var < f.numVars ∧
    (f.node i).low < i ∧
    (f.node i).high < i ∧
    (f.node i).low ≠ (f.node i).high ∧
    (f.node i).var < (f.node ((f.node i).low)).var ∧
    (f.node i).var < (f.node ((f.node i).high)).var

instance (f : Bdd) : Decidable (BddWF f) := by
  unfold BddWF; infer_instance

/-- The loop of `bdd_pickcube` from `lib.rs`.  `p` is the current node
pointer, `a` the assignment being built.  While `p` is not the `true`
terminal: if the low successor is not the `false` terminal, record the
node's variable as `False` and move low, otherwise record it as `True` and
move high.  The source iterates an unbounded `while`; here `fuel` bounds the
iteration count and running out of fuel yields `none` (theorem `C9` shows
fuel `numVars` always suffices on well-formed input). -/
def pickLoop (f : Bdd) : Nat → Nat → List OptBool → Option (List OptBool)
  | fuel, p, a =>
    if p = 1 then some a
    else
      match fuel with
      | 0 => none
      | fuel + 1 =>
        let n := f.node p
        if n.low ≠ 0 then pickLoop f fuel n.low (a.set n.var OptBool.False)
        else pickLoop f fuel n.high (a.set n.var OptBool.True)

/-- FFI entry `bdd_pickcube` from `lib.rs`: on the `false` diagram return the null
buffer; otherwise initialize every variable to don't-care and walk from the
root (the walk's fuel `numVars` is justified by theorem `C9`). -/
def bdd_pickcube (f : Bdd) : bdd_assignment_t :=
  if f.isFalse then { data := none, len := 0 }
  else
    match pickLoop f f.numVars f.root (List.replicate f.numVars OptBool.None) with
    | some a => { data := some a, len := a.length }
    | none => { data := none, len := 0 }

/-- Evaluation of a diagram under a total assignment `σ`, following the
engine's semantics: from a pointer, return `true` at terminal 1, `false` at
terminal 0, otherwise branch on the node's variable.  `fuel` bounds the
descent; `fuel ≥ p` always suffices on well-formed input since successors
have smaller indices. -/
def evalPtr (f : Bdd) (σ : Nat → Bool) : Nat → Nat → Option Bool
  | fuel, p =>
    if p = 1 then some true
    else if p = 0 then some false
    else
      match fuel with
      | 0 => none
      | fuel + 1 =>
        let n := f.node p
        evalPtr f σ fuel (if σ n.var then n.high else n.low)

/-- Evaluate a diagram at its root (fuel `size` suffices: the root has index
`size - 1` and indices strictly decrease along edges). -/
def Bdd.eval (f : Bdd) (σ : Nat → Bool) : Option Bool :=
  evalPtr f σ f.size f.root

/-- A total assignment `σ` agrees with a cube `a` when it matches every
constrained (non-don't-care) entry of `a`. -/
def Agrees (a : List OptBool) (σ : Nat → Bool) : Prop :=
  ∀ i, (a.getD i OptBool.None = OptBool.False → σ i = false) ∧
       (a.getD i OptBool.None = OptBool.True → σ i = true)

/-- The allocator state for assignment buffers: the list of currently
allocated buffers.  `bdd_assignment_free` from `lib.rs`: a null data pointer
is a no-op, otherwise the buffer is reconstructed and dropped
(deallocated). -/
def bdd_assignment_free (heap : List (List OptBool)) (a : bdd_assignment_t) :
    List (List OptBool) :=
  match a.data with
  | none => heap
  | some v => heap.erase v

-- Manager & handle lifecycle

/-- State `Manager` from `lib.rs`: the variable universe (embedded as its variable
count), reference count, running node total, and the fixed node budget. -/
structure Manager where
  numVars : Nat
  rc : Nat
  nodes_total : Nat
  max_nodes_total : Nat
deriving DecidableEq, Repr

/-- Constructor `Manager::new` from `lib.rs`: `rc = 1`, `nodes_total = 0`. -/
def Manager.new (numVars max_nodes_total : Nat) : Manager :=
  { numVars := numVars, rc := 1, nodes_total := 0,
    max_nodes_total := max_nodes_total }

/-- FFI entry `manager_new` from `lib.rs` (allocation of the box is implicit). -/
def manager_new (num_vars max_nodes_total : Nat) : Manager :=
  Manager.new num_vars max_nodes_total

/-- FFI entry `manager_ref` from `lib.rs`: increment `rc` (the same pointer is
returned; aliasing is not modelled). -/
def manager_ref (m : Manager) : Manager := { m with rc := m.rc + 1 }

/-- FFI entry `manager_unref` from `lib.rs`: at `rc = 1` the manager is destroyed
(modelled by `none`), otherwise `rc` is decremented. -/
def manager_unref (m : Manager) : Option Manager :=
  if m.rc = 1 then none else some { m with rc := m.rc - 1 }

/-- FFI entry `manager_node_count` from `lib.rs`. -/
def manager_node_count (m : Manager) : Nat := m.nodes_total

/-- State `RcBdd` from `lib.rs`: an owned diagram value with a reference count
(the raw back-pointer to the manager is modelled by passing the manager
state explicitly). -/
structure RcBdd where
  bdd : Bdd
  rc : Nat
deriving DecidableEq, Repr

/-- FFI entry `bdd_nodecount` from `lib.rs`: the engine's `size()` of the diagram. -/
def bdd_nodecount (b : RcBdd) : Nat := b.bdd.size

/-- Construction protocol `bdd_t::from_bdd` from `lib.rs`, the construction protocol shared by
every diagram-producing operation: increment the manager's `rc`, add the
diagram's node count to `nodes_total`, abort the process (`none`) if
`nodes_total` now exceeds `max_nodes_total`, otherwise wrap the diagram in a
fresh handle with `rc = 1`. -/
def from_bdd (bdd : Bdd) (m : Manager) : Option (RcBdd × Manager) :=
  let m' : Manager :=
    { m with rc := m.rc + 1, nodes_total := m.nodes_total + bdd.size }
  if m'.max_nodes_total < m'.nodes_total then none
  else some ({ bdd := bdd, rc := 1 }, m')

/-- FFI entry `bdd_ref` from `lib.rs`: increment the handle's `rc`. -/
def bdd_ref (b : RcBdd) : RcBdd := { b with rc := b.rc + 1 }

/-- FFI entry `bdd_unref` from `lib.rs`: at `rc = 1`, subtract the diagram's node
count from the manager's `nodes_total`, release the implicit manager
reference via `manager_unref`, and destroy the handle (first component
`none`); at `rc > 1`, only decrement.  The second component is the manager
after the call (`none` when `manager_unref` destroyed it). -/
def bdd_unref (b : RcBdd) (m : Manager) : Option RcBdd × Option Manager :=
  if b.rc = 1 then
    (none, manager_unref { m with nodes_total := m.nodes_total - b.bdd.size })
  else
    (some { b with rc := b.rc - 1 }, some m)

-- Renaming operations

/-- FFI entry `bdd_rename_variable` from `lib.rs`, relative to an abstract engine
rename (`engineRename f x y` is the engine's in-place
`Bdd::rename_variable` applied to a clone of `f`): clone the input handle's
diagram, rename on the clone, then run the construction protocol on the
first operand's manager. -/
def bdd_rename_variable (engineRename : Bdd → Nat → Nat → Bdd)
    (b : RcBdd) (m : Manager) (x y : Nat) : Option (RcBdd × Manager) :=
  from_bdd (engineRename b.bdd x y) m

/-- FFI entry `bdd_rename_variables` from `lib.rs`, relative to an abstract engine
bulk rename (`engineRenameMap f pairs` is the engine's in-place
`Bdd::rename_variables` applied to a clone of `f`). -/
def bdd_rename_variables (engineRenameMap : Bdd → List (Nat × Nat) → Bdd)
    (b : RcBdd) (m : Manager) (pairs : List (Nat × Nat)) :
    Option (RcBdd × Manager) :=
  from_bdd (engineRenameMap b.bdd pairs) m

-- Operation sequences over one manager and its family of handles

/-- The observable state of one manager together with its live handles. -/
structure State where
  manager : Manager
  handles : List RcBdd
deriving DecidableEq, Repr

/-- The initial state right after `manager_new`: no live handles. -/
def initState (num_vars max_nodes_total : Nat) : State :=
  { manager := manager_new num_vars max_nodes_total, handles := [] }

/-- One FFI call on a manager's family.  `produce bdd` stands for any
diagram-producing operation of `lib.rs` (constant, literal, algebraic
operator, quantification, renaming) whose engine-computed result is `bdd`:
every such operation's body is exactly `bdd_t::from_bdd(bdd, manager)`. -/
inductive Op where
  | produce (bdd : Bdd)
  | handleRef (i : Nat)
  | handleUnref (i : Nat)
  | mgrRef
  | mgrUnref
deriving Repr

/-- One step of the state machine.  `none` models the undefined or fatal
outcomes: budget abort in `produce`, a dangling handle index, or a
`manager_unref` that destroys the manager (a contract violation while
handles are still live). -/
def step (s : State) : Op → Option State
  | .produce bdd =>
    match from_bdd bdd s.manager with
    | none => none
    | some (h, m) => some { manager := m, handles := s.handles ++ [h] }
  | .handleRef i =>
    match s.handles.get? i with
    | none => none
    | some b => some { s with handles := s.handles.set i (bdd_ref b) }
  | .handleUnref i =>
    match s.handles.get? i with
    | none => none
    | some b =>
      match bdd_unref b s.manager with
      | (none, some m) => some { manager := m, handles := s.handles.eraseIdx i }
      | (some b', some m) => some { manager := m, handles := s.handles.set i b' }
      | (_, none) => none
  | .mgrRef => some { s with manager := manager_ref s.manager }
  | .mgrUnref =>
    match manager_unref s.manager with
    | none => none
    | some m => some { s with manager := m }

/-- Run a sequence of calls; `none` as soon as one step aborts. -/
def run (s : State) : List Op → Option State
  | [] => some s
  | op :: ops =>
    match step s op with
    | none => none
    | some s' => run s' ops

-- Iterated ref/unref

/-- Iterate `manager_ref` calls `n` times. -/
def mRefN (n : Nat) (m : Manager) : Manager :=
  match n with
  | 0 => m
  | n + 1 => manager_ref (mRefN n m)

/-- Iterate `manager_unref` calls `n` times; `none` if the manager is destroyed
before the sequence ends. -/
def mUnrefN : Nat → Manager → Option Manager
  | 0, m => some m
  | n + 1, m =>
    match manager_unref m with
    | none => none
    | some m' => mUnrefN n m'

/-- Iterate `bdd_ref` calls `n` times. -/
def hRefN (n : Nat) (b : RcBdd) : RcBdd :=
  match n with
  | 0 => b
  | n + 1 => bdd_ref (hRefN n b)

/-- Iterate `bdd_unref` calls `n` times on a handle and its manager; `none` if
the handle is destroyed before the sequence ends. -/
def hUnrefN : Nat → RcBdd → Manager → Option (RcBdd × Manager)
  | 0, b, m => some (b, m)
  | n + 1, b, m =>
    match bdd_unref b m with
    | (some b', some m') => hUnrefN n b' m'
    | _ => none

-- Concrete engine diagrams used in witnesses and counterexamples.  Their
-- shapes follow the engine's constructors: `mk_false` is the single `false`
-- terminal, `mk_true` the two terminals, `mk_var i` adds one decision node.

/-- The `false` constant over a 1-variable universe, as built by the
engine's `mk_false`. -/
def falseBdd1 : Bdd := ⟨1, [⟨1, 0, 0⟩]⟩

/-- The `true` constant over a 2-variable universe, as built by the engine's
`mk_true`. -/
def trueBdd2 : Bdd := ⟨2, [⟨2, 0, 0⟩, ⟨2, 1, 1⟩]⟩

/-- The literal `x0` over a 2-variable universe, as built by the engine's
`mk_var`. -/
def litBdd : Bdd := ⟨2, [⟨2, 0, 0⟩, ⟨2, 1, 1⟩, ⟨0, 0, 1⟩]⟩

/-- The conjunction `x0 ∧ x1` over a 3-variable universe. -/
def andBdd : Bdd := ⟨3, [⟨3, 0, 0⟩, ⟨3, 1, 1⟩, ⟨1, 0, 1⟩, ⟨0, 0, 2⟩]⟩

-- List helper lemmas

theorem getD_set_self {α : Type} (l : List α) (i : Nat) (v d : α)
    (h : i < l.length) : (l.set i v).getD i d = v := by
  induction l generalizing i with
  | nil => simp at h
  | cons x xs ih =>
    cases i with
    | zero => simp [List.set, List.getD]
    | succ j =>
      simp only [List.set, List.getD_cons_succ]
      exact ih j (by simpa using h)

theorem getD_set_ne {α : Type} (l : List α) (i j : Nat) (v d : α)
    (h : i ≠ j) : (l.set i v).getD j d = l.getD j d := by
  induction l generalizing i j with
  | nil => simp [List.set]
  | cons x xs ih =>
    cases i with
    | zero =>
      cases j with
      | zero => exact absurd rfl h
      | succ k => simp [List.set]
    | succ i' =>
      cases j with
      | zero => simp [List.set]
      | succ k =>
        simp only [List.set, List.getD_cons_succ]
        exact ih i' k (fun hc => h (by rw [hc]))

theorem getD_replicate_none (n i : Nat) :
    (List.replicate n OptBool.None).getD i OptBool.None = OptBool.None := by
  induction n generalizing i with
  | zero => simp [List.getD]
  | succ k ih =>
    cases i with
    | zero => simp [List.replicate]
    | succ j => simp [List.replicate, ih j]

theorem sum_eraseIdx_add (l : List Nat) (i : Nat) (h : i < l.length) :
    (l.eraseIdx i).sum + l.getD i 0 = l.sum := by
  induction l generalizing i with
  | nil => simp at h
  | cons x xs ih =>
    cases i with
    | zero => simp [List.eraseIdx, Nat.add_comm]
    | succ j =>
      simp only [List.eraseIdx, List.sum_cons, List.getD_cons_succ]
      have := ih j (by simpa using h)
      omega

-- Iterated ref/unref helper lemmas (shared by the round-trip theorem)

theorem mRefN_rc (n : Nat) (m : Manager) :
    mRefN n m = { m with rc := m.rc + n } := by
  induction n with
  | zero => rfl
  | succ k ih =>
    rw [mRefN, ih]
    rfl

theorem mUnrefN_of_rc_add (n nv rc nt mx : Nat) (h : 1 ≤ rc) :
    mUnrefN n ⟨nv, rc + n, nt, mx⟩ = some ⟨nv, rc, nt, mx⟩ := by
  induction n with
  | zero => rfl
  | succ k ih =>
    have hne : rc + (k + 1) ≠ 1 := by omega
    have hstep : manager_unref (⟨nv, rc + (k + 1), nt, mx⟩ : Manager)
        = some ⟨nv, rc + k, nt, mx⟩ := by
      simp only [manager_unref]
      rw [if_neg hne]
      have e : rc + (k + 1) - 1 = rc + k := by omega
      simp [e]
    rw [mUnrefN, hstep]
    exact ih

theorem hRefN_rc (n : Nat) (b : RcBdd) :
    hRefN n b = { b with rc := b.rc + n } := by
  induction n with
  | zero => rfl
  | succ k ih =>
    rw [hRefN, ih]
    rfl

theorem hUnrefN_of_rc_add (n : Nat) (bdd : Bdd) (rc : Nat) (m : Manager)
    (h : 1 ≤ rc) : hUnrefN n ⟨bdd, rc + n⟩ m = some (⟨bdd, rc⟩, m) := by
  induction n with
  | zero => rfl
  | succ k ih =>
    have hne : rc + (k + 1) ≠ 1 := by omega
    have hstep : bdd_unref (⟨bdd, rc + (k + 1)⟩ : RcBdd) m
        = (some ⟨bdd, rc + k⟩, some m) := by
      simp only [bdd_unref]
      rw [if_neg hne]
      have e : rc + (k + 1) - 1 = rc + k := by omega
      simp [e]
    rw [hUnrefN, hstep]
    exact ih

-- Shared facts about the construction protocol

theorem from_bdd_none_iff (bdd : Bdd) (m : Manager) :
    from_bdd bdd m = none ↔ m.max_nodes_total < m.nodes_total + bdd.size := by
  unfold from_bdd
  by_cases hlt : m.max_nodes_total < m.nodes_total + bdd.size
  · simp [hlt]
  · simp [hlt]

theorem from_bdd_some (bdd : Bdd) (m : Manager) (h : RcBdd) (m' : Manager)
    (hs : from_bdd bdd m = some (h, m')) :
    m'.nodes_total = m.nodes_total + bdd.size ∧
    m'.rc = m.rc + 1 ∧
    m'.max_nodes_total = m.max_nodes_total ∧
    m'.numVars = m.numVars ∧
    h.rc = 1 ∧ h.bdd = bdd := by
  unfold from_bdd at hs
  by_cases hlt : m.max_nodes_total < m.nodes_total + bdd.size
  · simp [hlt] at hs
  · simp only [hlt, if_false, Option.some.injEq, Prod.mk.injEq] at hs
    obtain ⟨hh, hm⟩ := hs
    subst hh hm
    simp

-- Claim theorems for the lifecycle and budget protocol

/-- C1: every diagram-producing operation runs `bdd_t::from_bdd`, which adds
the new diagram's node count to the manager's `nodes_total` and terminates
the process (modelled by `none`) iff the resulting `nodes_total` strictly
exceeds `max_nodes_total`; otherwise it increments the manager's `rc` by one
and returns a fresh handle with `rc = 1`.  In particular a budget equal to
the exact resulting total lets the construction succeed. -/
theorem C1_budget_guard (bdd : Bdd) (m : Manager) :
    (from_bdd bdd m = none ↔ m.max_nodes_total < m.nodes_total + bdd.size) ∧
    (∀ h m', from_bdd bdd m = some (h, m') →
      m'.nodes_total = m.nodes_total + bdd.size ∧
      m'.rc = m.rc + 1 ∧
      m'.max_nodes_total = m.max_nodes_total ∧
      m'.numVars = m.numVars ∧
      h.rc = 1 ∧ h.bdd = bdd) ∧
    (m.nodes_total + bdd.size = m.max_nodes_total → from_bdd bdd m ≠ none) := by
  refine ⟨from_bdd_none_iff bdd m, ?_, ?_⟩
  · intro h m' hsome
    exact from_bdd_some bdd m h m' hsome
  · intro heq hnone
    have := (from_bdd_none_iff bdd m).mp hnone
    omega

/-- Witness for C1 at the literal `x0` over 2 variables with budget 10. -/
theorem C1_budget_guard_witness :
    from_bdd litBdd (manager_new 2 10) = some (⟨litBdd, 1⟩, ⟨2, 2, 3, 10⟩) ∧
    (⟨2, 2, 3, 10⟩ : Manager).rc = (manager_new 2 10).rc + 1 ∧
    (⟨2, 2, 3, 10⟩ : Manager).nodes_total
      = (manager_new 2 10).nodes_total + litBdd.size :=
  ⟨by decide,
   ((C1_budget_guard litBdd (manager_new 2 10)).2.1 ⟨litBdd, 1⟩ ⟨2, 2, 3, 10⟩
      (by decide)).2.1,
   ((C1_budget_guard litBdd (manager_new 2 10)).2.1 ⟨litBdd, 1⟩ ⟨2, 2, 3, 10⟩
      (by decide)).1⟩

/-- C5: `bdd_unref` with `rc = 1` is the terminal release: it destroys the
handle, subtracts the diagram's node count from the manager's
`nodes_total`, and invokes `manager_unref` on the result (which destroys
the manager exactly when its `rc` was 1, and otherwise decrements it); with
`rc > 1` it only decrements the handle's `rc`. -/
theorem C5_bdd_unref_spec (b : RcBdd) (m : Manager) :
    (b.rc = 1 →
      bdd_unref b m
        = (none,
           manager_unref
             { m with nodes_total := m.nodes_total - bdd_nodecount b }) ∧
      (m.rc = 1 →
        manager_unref { m with nodes_total := m.nodes_total - bdd_nodecount b }
          = none) ∧
      (m.rc ≠ 1 →
        manager_unref { m with nodes_total := m.nodes_total - bdd_nodecount b }
          = some { m with nodes_total := m.nodes_total - bdd_nodecount b,
                          rc := m.rc - 1 })) ∧
    (1 < b.rc →
      bdd_unref b m = (some { b with rc := b.rc - 1 }, some m)) := by
  obtain ⟨bdd, brc⟩ := b
  obtain ⟨nv, rc, nt, mx⟩ := m
  constructor
  · intro h1
    subst h1
    refine ⟨rfl, ?_, ?_⟩
    · intro hm
      simp only [manager_unref, bdd_nodecount] at hm ⊢
      simp [hm]
    · intro hm
      simp only [manager_unref, bdd_nodecount] at hm ⊢
      simp [hm]
  · intro hgt
    have hgt' : 1 < brc := hgt
    have hne : brc ≠ 1 := by omega
    simp [bdd_unref, hne]

/-- Witness for C5: terminal release at `rc = 1` and plain decrement at
`rc = 2`. -/
theorem C5_bdd_unref_spec_witness :
    bdd_unref ⟨litBdd, 1⟩ ⟨2, 2, 3, 10⟩ = (none, some ⟨2, 1, 0, 10⟩) ∧
    bdd_unref ⟨litBdd, 2⟩ ⟨2, 2, 3, 10⟩
      = (some ⟨litBdd, 1⟩, some ⟨2, 2, 3, 10⟩) := by
  constructor
  · have h := (C5_bdd_unref_spec ⟨litBdd, 1⟩ ⟨2, 2, 3, 10⟩).1 rfl
    rw [h.1, h.2.2 (by decide)]
    decide
  · exact (C5_bdd_unref_spec ⟨litBdd, 2⟩ ⟨2, 2, 3, 10⟩).2 (by decide)

/-- C6: on a manager or handle with at least one outstanding reference,
`n` `ref` calls followed by `n` `unref` calls restore the exact observable
state (for a handle, also leaving the manager untouched), and `n - 1`
`unref` calls after `n` `ref` calls leave the object alive with exactly one
extra reference. -/
theorem C6_ref_unref_round_trip (n : Nat) (m : Manager) (b : RcBdd)
    (bm : Manager) (hm : 1 ≤ m.rc) (hb : 1 ≤ b.rc) :
    mUnrefN n (mRefN n m) = some m ∧
    hUnrefN n (hRefN n b) bm = some (b, bm) ∧
    (1 ≤ n →
      mUnrefN (n - 1) (mRefN n m) = some (manager_ref m) ∧
      hUnrefN (n - 1) (hRefN n b) bm = some (bdd_ref b, bm)) := by
  obtain ⟨nv, rc, nt, mx⟩ := m
  obtain ⟨bdd, brc⟩ := b
  refine ⟨?_, ?_, ?_⟩
  · rw [mRefN_rc]
    exact mUnrefN_of_rc_add n nv rc nt mx hm
  · rw [hRefN_rc]
    exact hUnrefN_of_rc_add n bdd brc bm hb
  · intro hn
    have em : rc + n = (rc + 1) + (n - 1) := by omega
    have eb : brc + n = (brc + 1) + (n - 1) := by omega
    constructor
    · rw [mRefN_rc]
      show mUnrefN (n - 1) ⟨nv, rc + n, nt, mx⟩ = some ⟨nv, rc + 1, nt, mx⟩
      rw [em]
      exact mUnrefN_of_rc_add (n - 1) nv (rc + 1) nt mx (by omega)
    · rw [hRefN_rc]
      show hUnrefN (n - 1) ⟨bdd, brc + n⟩ bm = some (⟨bdd, brc + 1⟩, bm)
      rw [eb]
      exact hUnrefN_of_rc_add (n - 1) bdd (brc + 1) bm (by omega)

/-- Witness for C6 at `n = 2` on a fresh manager and a fresh handle. -/
theorem C6_ref_unref_round_trip_witness :
    mUnrefN 2 (mRefN 2 (manager_new 2 10)) = some (manager_new 2 10) ∧
    hUnrefN 2 (hRefN 2 ⟨litBdd, 1⟩) ⟨2, 2, 3, 10⟩
      = some (⟨litBdd, 1⟩, ⟨2, 2, 3, 10⟩) ∧
    mUnrefN 1 (mRefN 2 (manager_new 2 10)) = some (manager_ref (manager_new 2 10)) :=
  ⟨(C6_ref_unref_round_trip 2 (manager_new 2 10) ⟨litBdd, 1⟩ ⟨2, 2, 3, 10⟩
      (by decide) (by decide)).1,
   (C6_ref_unref_round_trip 2 (manager_new 2 10) ⟨litBdd, 1⟩ ⟨2, 2, 3, 10⟩
      (by decide) (by decide)).2.1,
   ((C6_ref_unref_round_trip 2 (manager_new 2 10) ⟨litBdd, 1⟩ ⟨2, 2, 3, 10⟩
      (by decide) (by decide)).2.2 (by decide)).1⟩

/-- C8: `bdd_pickcube` on an identically-false diagram returns the
designated empty buffer (null data pointer, zero length), and
`bdd_assignment_free` on a buffer with a null data pointer leaves the
allocator state unchanged. -/
theorem C8_empty_buffer_protocol :
    (∀ f : Bdd, f.isFalse = true →
      bdd_pickcube f = { data := none, len := 0 }) ∧
    (∀ (heap : List (List OptBool)) (a : bdd_assignment_t),
      a.data = none → bdd_assignment_free heap a = heap) := by
  constructor
  · intro f hf
    simp [bdd_pickcube, hf]
  · intro heap a ha
    simp [bdd_assignment_free, ha]

/-- Witness for C8 at the `false` constant over one variable and a one-entry
allocator heap. -/
theorem C8_empty_buffer_protocol_witness :
    bdd_pickcube falseBdd1 = { data := none, len := 0 } ∧
    bdd_assignment_free [[OptBool.True]] ⟨none, 0⟩ = [[OptBool.True]] :=
  ⟨C8_empty_buffer_protocol.1 falseBdd1 (by decide),
   C8_empty_buffer_protocol.2 [[OptBool.True]] ⟨none, 0⟩ rfl⟩

-- Renaming at the state level: the new handle is appended, existing
-- handles are untouched.

/-- State-level `bdd_rename_variable`: look up the input handle, rename on a
clone of its diagram via the engine, run the construction protocol, and
register the new handle. -/
def renameVariableStep (engineRename : Bdd → Nat → Nat → Bdd)
    (s : State) (i x y : Nat) : Option State :=
  match s.handles.get? i with
  | none => none
  | some b =>
    match bdd_rename_variable engineRename b s.manager x y with
    | none => none
    | some (h, m) => some { manager := m, handles := s.handles ++ [h] }

/-- State-level `bdd_rename_variables` (bulk pair-list version). -/
def renameVariablesStep (engineRenameMap : Bdd → List (Nat × Nat) → Bdd)
    (s : State) (i : Nat) (pairs : List (Nat × Nat)) : Option State :=
  match s.handles.get? i with
  | none => none
  | some b =>
    match bdd_rename_variables engineRenameMap b s.manager pairs with
    | none => none
    | some (h, m) => some { manager := m, handles := s.handles ++ [h] }

/-- C7: both renaming operations work on a clone of the input handle's
diagram: after a successful rename, every pre-existing handle — in
particular the input handle — still holds exactly the diagram value it held
before, and the new handle holds the engine's rename of the input's value. -/
theorem C7_rename_preserves_original
    (er : Bdd → Nat → Nat → Bdd) (erm : Bdd → List (Nat × Nat) → Bdd)
    (s : State) (i x y : Nat) (pairs : List (Nat × Nat)) (s₁ s₂ : State)
    (h1 : renameVariableStep er s i x y = some s₁)
    (h2 : renameVariablesStep erm s i pairs = some s₂) :
    (∀ j, j < s.handles.length → s₁.handles[j]? = s.handles[j]?) ∧
    (∀ j, j < s.handles.length → s₂.handles[j]? = s.handles[j]?) ∧
    (∀ b, s.handles.get? i = some b →
      (∃ h, s₁.handles[s.handles.length]? = some h ∧
        h.bdd = er b.bdd x y ∧ h.rc = 1) ∧
      (∃ h, s₂.handles[s.handles.length]? = some h ∧
        h.bdd = erm b.bdd pairs ∧ h.rc = 1)) := by
  unfold renameVariableStep at h1
  unfold renameVariablesStep at h2
  cases hb : s.handles.get? i with
  | none =>
    rw [hb] at h1
    simp at h1
  | some b =>
    rw [hb] at h1 h2
    dsimp only at h1 h2
    cases hr1 : bdd_rename_variable er b s.manager x y with
    | none => simp [hr1] at h1
    | some hm1 =>
      cases hr2 : bdd_rename_variables erm b s.manager pairs with
      | none => simp [hr2] at h2
      | some hm2 =>
        obtain ⟨hdl1, m1⟩ := hm1
        obtain ⟨hdl2, m2⟩ := hm2
        rw [hr1] at h1
        rw [hr2] at h2
        dsimp only at h1 h2
        injection h1 with h1
        injection h2 with h2
        subst h1
        subst h2
        refine ⟨?_, ?_, ?_⟩
        · intro j hj
          exact List.getElem?_append_left hj
        · intro j hj
          exact List.getElem?_append_left hj
        · intro bIn hbIn
          injection hbIn with e
          rw [← e]
          have hget : ∀ h : RcBdd,
              (s.handles ++ [h])[s.handles.length]? = some h := by
            intro h
            rw [List.getElem?_append_right (Nat.le_refl _)]
            simp
          have e1 := from_bdd_some (er b.bdd x y) s.manager hdl1 m1 hr1
          have e2 := from_bdd_some (erm b.bdd pairs) s.manager hdl2 m2 hr2
          exact ⟨⟨hdl1, hget hdl1, e1.2.2.2.2.2, e1.2.2.2.2.1⟩,
                 ⟨hdl2, hget hdl2, e2.2.2.2.2.2, e2.2.2.2.2.1⟩⟩

/-- Witness for C7: renaming (with an identity engine rename) over a state
with one live handle leaves that handle's slot unchanged. -/
theorem C7_rename_preserves_original_witness :
    ({ manager := ⟨2, 3, 6, 10⟩,
       handles := [⟨litBdd, 1⟩, ⟨litBdd, 1⟩] } : State).handles[0]?
      = ({ manager := ⟨2, 2, 3, 10⟩,
           handles := [⟨litBdd, 1⟩] } : State).handles[0]? :=
  (C7_rename_preserves_original (fun f _ _ => f) (fun f _ => f)
    { manager := ⟨2, 2, 3, 10⟩, handles := [⟨litBdd, 1⟩] } 0 0 1 []
    { manager := ⟨2, 3, 6, 10⟩, handles := [⟨litBdd, 1⟩, ⟨litBdd, 1⟩] }
    { manager := ⟨2, 3, 6, 10⟩, handles := [⟨litBdd, 1⟩, ⟨litBdd, 1⟩] }
    (by decide) (by decide)).1 0 (by decide)

-- The accounting invariant: the manager's running total equals the sum of
-- the live handles' node counts.

theorem map_eraseIdx_comm {α β : Type} (f : α → β) (l : List α) (i : Nat) :
    (l.eraseIdx i).map f = (l.map f).eraseIdx i := by
  induction l generalizing i with
  | nil => simp [List.eraseIdx]
  | cons x xs ih =>
    cases i with
    | zero => simp [List.eraseIdx]
    | succ j => simp [List.eraseIdx, ih j]

theorem sum_map_set_same {α : Type} (f : α → Nat) (l : List α) (i : Nat)
    (b b' : α) (hget : l.get? i = some b) (hn : f b' = f b) :
    ((l.set i b').map f).sum = (l.map f).sum := by
  induction l generalizing i with
  | nil => simp at hget
  | cons x xs ih =>
    cases i with
    | zero =>
      injection hget with e
      subst e
      simp [List.set, hn]
    | succ j =>
      simp only [List.get?] at hget
      show (List.map f (x :: xs.set j b')).sum = (List.map f (x :: xs)).sum
      rw [List.map_cons, List.map_cons, List.sum_cons, List.sum_cons,
        ih j hget]

theorem getD_map_of_get? {α : Type} (f : α → Nat) (l : List α) (i : Nat)
    (b : α) (h : l.get? i = some b) : (l.map f).getD i 0 = f b := by
  induction l generalizing i with
  | nil => simp at h
  | cons x xs ih =>
    cases i with
    | zero =>
      injection h with e
      subst e
      simp [List.getD]
    | succ j =>
      simp only [List.get?] at h
      show (List.map f (x :: xs)).getD (j + 1) 0 = f b
      rw [List.map_cons, List.getD_cons_succ]
      exact ih j h

/-- The accounting identity of the spec: `nodes_total` equals the sum of the
live handles' individually-reported node counts. -/
def Inv (s : State) : Prop :=
  s.manager.nodes_total = (s.handles.map bdd_nodecount).sum

theorem step_inv (s s' : State) (op : Op) (hi : Inv s)
    (h : step s op = some s') : Inv s' := by
  cases op with
  | produce bdd =>
    unfold step at h
    dsimp only at h
    cases hfb : from_bdd bdd s.manager with
    | none =>
      rw [hfb] at h
      simp at h
    | some pm =>
      obtain ⟨hd, m⟩ := pm
      rw [hfb] at h
      dsimp only at h
      injection h with h
      subst h
      have e := from_bdd_some bdd s.manager hd m hfb
      show m.nodes_total = ((s.handles ++ [hd]).map bdd_nodecount).sum
      rw [List.map_append, List.sum_append, e.1, hi]
      simp [bdd_nodecount, e.2.2.2.2.2]
  | handleRef i =>
    unfold step at h
    dsimp only at h
    cases hget : s.handles.get? i with
    | none =>
      rw [hget] at h
      simp at h
    | some b =>
      rw [hget] at h
      dsimp only at h
      injection h with h
      subst h
      show s.manager.nodes_total
        = ((s.handles.set i (bdd_ref b)).map bdd_nodecount).sum
      rw [sum_map_set_same bdd_nodecount s.handles i b (bdd_ref b) hget rfl]
      exact hi
  | handleUnref i =>
    unfold step at h
    dsimp only at h
    cases hget : s.handles.get? i with
    | none =>
      rw [hget] at h
      simp at h
    | some b =>
      rw [hget] at h
      dsimp only at h
      by_cases hrc : b.rc = 1
      · have hu : bdd_unref b s.manager
            = (none, manager_unref
                { s.manager with
                  nodes_total := s.manager.nodes_total - b.bdd.size }) := by
          simp [bdd_unref, hrc]
        by_cases hm : s.manager.rc = 1
        · have hmu : manager_unref
              { s.manager with
                nodes_total := s.manager.nodes_total - b.bdd.size } = none := by
            simp [manager_unref, hm]
          rw [hu, hmu] at h
          simp at h
        · have hmu : manager_unref
              { s.manager with
                nodes_total := s.manager.nodes_total - b.bdd.size }
              = some { s.manager with
                       nodes_total := s.manager.nodes_total - b.bdd.size,
                       rc := s.manager.rc - 1 } := by
            simp [manager_unref, hm]
          rw [hu, hmu] at h
          dsimp only at h
          injection h with h
          subst h
          show s.manager.nodes_total - b.bdd.size
            = ((s.handles.eraseIdx i).map bdd_nodecount).sum
          have hsum := sum_eraseIdx_add (s.handles.map bdd_nodecount) i
            (by
              rw [List.length_map]
              exact List.get?_eq_some.mp hget |>.1)
          rw [getD_map_of_get? bdd_nodecount s.handles i b hget] at hsum
          rw [map_eraseIdx_comm]
          have hnc : bdd_nodecount b = b.bdd.size := rfl
          rw [hi]
          omega
      · have hu : bdd_unref b s.manager
            = (some { b with rc := b.rc - 1 }, some s.manager) := by
          simp [bdd_unref, hrc]
        rw [hu] at h
        dsimp only at h
        injection h with h
        subst h
        show s.manager.nodes_total
          = ((s.handles.set i { b with rc := b.rc - 1 }).map bdd_nodecount).sum
        rw [sum_map_set_same bdd_nodecount s.handles i b
          { b with rc := b.rc - 1 } hget rfl]
        exact hi
  | mgrRef =>
    unfold step at h
    dsimp only at h
    injection h with h
    subst h
    exact hi
  | mgrUnref =>
    unfold step at h
    dsimp only at h
    cases hmu : manager_unref s.manager with
    | none =>
      rw [hmu] at h
      simp at h
    | some m =>
      rw [hmu] at h
      dsimp only at h
      injection h with h
      subst h
      show m.nodes_total = (s.handles.map bdd_nodecount).sum
      unfold manager_unref at hmu
      by_cases hm : s.manager.rc = 1
      · simp [hm] at hmu
      · rw [if_neg hm] at hmu
        injection hmu with hmu
        subst hmu
        exact hi

theorem run_inv (ops : List Op) (s t : State) (hi : Inv s)
    (h : run s ops = some t) : Inv t := by
  induction ops generalizing s with
  | nil =>
    unfold run at h
    injection h with h
    subst h
    exact hi
  | cons op rest ih =>
    unfold run at h
    cases hst : step s op with
    | none =>
      rw [hst] at h
      simp at h
    | some s' =>
      rw [hst] at h
      dsimp only at h
      exact ih s' (step_inv s s' op hi hst) h

/-- C2: right after `manager_new` the node count is 0; and after any
sequence of diagram-producing operations, handle refs/unrefs and manager
refs/unrefs that completes (no budget abort, no contract violation),
`manager_node_count` equals the sum of `bdd_nodecount` over all currently
live handles — each handle counted in full, with no deduplication of shared
structure. -/
theorem C2_node_accounting (num_vars max_nodes_total : Nat) (ops : List Op)
    (s : State) (h : run (initState num_vars max_nodes_total) ops = some s) :
    manager_node_count (initState num_vars max_nodes_total).manager = 0 ∧
    manager_node_count s.manager = (s.handles.map bdd_nodecount).sum :=
  ⟨rfl, run_inv ops (initState num_vars max_nodes_total) s rfl h⟩

/-- Witness for C2: a run that produces two diagrams, refs and unrefs, ends
with node count 3 = the one live handle's node count. -/
theorem C2_node_accounting_witness :
    run (initState 3 100)
      [Op.produce andBdd, Op.produce litBdd, Op.handleRef 0,
       Op.handleUnref 1, Op.handleUnref 0]
      = some { manager := ⟨3, 2, 4, 100⟩, handles := [⟨andBdd, 1⟩] } ∧
    manager_node_count (⟨3, 2, 4, 100⟩ : Manager)
      = ([(⟨andBdd, 1⟩ : RcBdd)].map bdd_nodecount).sum :=
  ⟨by decide,
   (C2_node_accounting 3 100
      [Op.produce andBdd, Op.produce litBdd, Op.handleRef 0,
       Op.handleUnref 1, Op.handleUnref 0]
      { manager := ⟨3, 2, 4, 100⟩, handles := [⟨andBdd, 1⟩] }
      (by decide)).2⟩

-- The pick-cube traversal: nodes visited, termination, and satisfaction

/-- The nodes visited by the pick-cube walk started at `p`: `p` itself (when
it is not the `true` terminal), then, following the walk's branch choice,
the nodes visited from the chosen successor. -/
inductive Visits (f : Bdd) : Nat → Nat → Prop where
  | here (p : Nat) : p ≠ 1 → Visits f p p
  | low (p q : Nat) : p ≠ 1 → (f.node p).low ≠ 0 →
      Visits f ((f.node p).low) q → Visits f p q
  | high (p q : Nat) : p ≠ 1 → (f.node p).low = 0 →
      Visits f ((f.node p).high) q → Visits f p q

theorem pickLoop_at_one (f : Bdd) (fuel : Nat) (a : List OptBool) :
    pickLoop f fuel 1 a = some a := by
  rw [pickLoop.eq_def]
  simp

theorem evalPtr_at_one (f : Bdd) (σ : Nat → Bool) (fe : Nat) :
    evalPtr f σ fe 1 = some true := by
  rw [evalPtr.eq_def]
  simp

/-- Main lemma about the pick-cube walk, by induction on the fuel: starting
at any valid non-`false` pointer `p` with `numVars - var(p)` fuel, the walk
terminates with an assignment that (1) has unchanged length, (2) agrees
with the input below `var(p)`, (3) differs from the input only at variables
of visited nodes, and (4) forces evaluation from `p` to the `true`
terminal under any total assignment agreeing with it. -/
theorem pickLoop_spec (f : Bdd) (hwf : BddWF f) (fuel : Nat) :
    ∀ p a, 1 ≤ p → p < f.size → a.length = f.numVars →
      f.numVars - (f.node p).var ≤ fuel →
      ∃ a', pickLoop f fuel p a = some a' ∧
        a'.length = f.numVars ∧
        (∀ i, i < (f.node p).var →
          a'.getD i OptBool.None = a.getD i OptBool.None) ∧
        (∀ i, a'.getD i OptBool.None ≠ a.getD i OptBool.None →
          ∃ q, Visits f p q ∧ (f.node q).var = i) ∧
        (∀ σ, Agrees a' σ → ∀ fe, p ≤ fe → evalPtr f σ fe p = some true) := by
  obtain ⟨hsz, h0, h1, hnodes⟩ := hwf
  induction fuel with
  | zero =>
    intro p a hp hpsz ha hfuel
    by_cases hp1 : p = 1
    · subst hp1
      refine ⟨a, pickLoop_at_one f 0 a, ha, fun i _ => rfl,
        fun i hi => absurd rfl hi, fun σ _ fe _ => evalPtr_at_one f σ fe⟩
    · have hp2 : 2 ≤ p := by omega
      have hv := (hnodes p hpsz hp2).1
      omega
  | succ k ih =>
    intro p a hp hpsz ha hfuel
    by_cases hp1 : p = 1
    · subst hp1
      refine ⟨a, pickLoop_at_one f (k + 1) a, ha, fun i _ => rfl,
        fun i hi => absurd rfl hi, fun σ _ fe _ => evalPtr_at_one f σ fe⟩
    · have hp2 : 2 ≤ p := by omega
      obtain ⟨hvar, hlowlt, hhighlt, hred, hvlow, hvhigh⟩ := hnodes p hpsz hp2
      by_cases hlow0 : (f.node p).low = 0
      · -- low successor is the false terminal: record True, move high
        have hc0 : (f.node p).high ≠ 0 := fun hc => hred (hlow0.trans hc.symm)
        set c := (f.node p).high with hc
        have hc1 : 1 ≤ c := Nat.one_le_iff_ne_zero.mpr hc0
        have hcsz : c < f.size := Nat.lt_trans hhighlt hpsz
        have hstep : pickLoop f (k + 1) p a
            = pickLoop f k c (a.set (f.node p).var OptBool.True) := by
          rw [pickLoop.eq_def]
          dsimp only
          rw [if_neg hp1, if_neg (not_not_intro hlow0)]
        have hfuel' : f.numVars - (f.node c).var ≤ k := by omega
        obtain ⟨a', hloop, hlen, hlo, hch, heval⟩ :=
          ih c (a.set (f.node p).var OptBool.True) hc1 hcsz
            (by rw [List.length_set]; exact ha) hfuel'
        refine ⟨a', hstep.trans hloop, hlen, ?_, ?_, ?_⟩
        · intro i hivar
          rw [hlo i (Nat.lt_trans hivar hvhigh),
            getD_set_ne a (f.node p).var i OptBool.True OptBool.None
              (Nat.ne_of_gt hivar)]
        · intro i hi
          by_cases hi2 : a'.getD i OptBool.None
              = (a.set (f.node p).var OptBool.True).getD i OptBool.None
          · have hset : (a.set (f.node p).var OptBool.True).getD i OptBool.None
                ≠ a.getD i OptBool.None := fun hc => hi (hi2.trans hc)
            have hieq : i = (f.node p).var := by
              by_contra hne
              exact hset (getD_set_ne a (f.node p).var i OptBool.True
                OptBool.None (fun hc => hne hc.symm))
            exact ⟨p, Visits.here p hp1, hieq.symm⟩
          · obtain ⟨q, hq, hqv⟩ := hch i hi2
            exact ⟨q, Visits.high p q hp1 hlow0 hq, hqv⟩
        · intro σ hag fe hfe
          have hvp : a'.getD (f.node p).var OptBool.None = OptBool.True := by
            rw [hlo (f.node p).var hvhigh]
            exact getD_set_self a (f.node p).var OptBool.True OptBool.None
              (by omega)
          have hσ : σ (f.node p).var = true := (hag (f.node p).var).2 hvp
          have hfe2 : 2 ≤ fe := Nat.le_trans hp2 hfe
          obtain ⟨fe', rfl⟩ : ∃ fe', fe = fe' + 1 :=
            ⟨fe - 1, by omega⟩
          rw [evalPtr.eq_def]
          dsimp only
          rw [if_neg hp1, if_neg (by omega : ¬ p = 0)]
          have harrow : (if σ (f.node p).var = true
              then (f.node p).high else (f.node p).low) = c := by
            rw [hσ]
            simp
          rw [harrow]
          exact heval σ hag fe' (by omega)
      · -- low successor is not the false terminal: record False, move low
        set c := (f.node p).low with hc
        have hc1 : 1 ≤ c := Nat.one_le_iff_ne_zero.mpr hlow0
        have hcsz : c < f.size := Nat.lt_trans hlowlt hpsz
        have hstep : pickLoop f (k + 1) p a
            = pickLoop f k c (a.set (f.node p).var OptBool.False) := by
          rw [pickLoop.eq_def]
          dsimp only
          rw [if_neg hp1, if_pos hlow0]
        have hfuel' : f.numVars - (f.node c).var ≤ k := by omega
        obtain ⟨a', hloop, hlen, hlo, hch, heval⟩ :=
          ih c (a.set (f.node p).var OptBool.False) hc1 hcsz
            (by rw [List.length_set]; exact ha) hfuel'
        refine ⟨a', hstep.trans hloop, hlen, ?_, ?_, ?_⟩
        · intro i hivar
          rw [hlo i (Nat.lt_trans hivar hvlow),
            getD_set_ne a (f.node p).var i OptBool.False OptBool.None
              (Nat.ne_of_gt hivar)]
        · intro i hi
          by_cases hi2 : a'.getD i OptBool.None
              = (a.set (f.node p).var OptBool.False).getD i OptBool.None
          · have hset : (a.set (f.node p).var OptBool.False).getD i OptBool.None
                ≠ a.getD i OptBool.None := fun hc => hi (hi2.trans hc)
            have hieq : i = (f.node p).var := by
              by_contra hne
              exact hset (getD_set_ne a (f.node p).var i OptBool.False
                OptBool.None (fun hc => hne hc.symm))
            exact ⟨p, Visits.here p hp1, hieq.symm⟩
          · obtain ⟨q, hq, hqv⟩ := hch i hi2
            exact ⟨q, Visits.low p q hp1 hlow0 hq, hqv⟩
        · intro σ hag fe hfe
          have hvp : a'.getD (f.node p).var OptBool.None = OptBool.False := by
            rw [hlo (f.node p).var hvlow]
            exact getD_set_self a (f.node p).var OptBool.False OptBool.None
              (by omega)
          have hσ : σ (f.node p).var = false := (hag (f.node p).var).1 hvp
          have hfe2 : 2 ≤ fe := Nat.le_trans hp2 hfe
          obtain ⟨fe', rfl⟩ : ∃ fe', fe = fe' + 1 :=
            ⟨fe - 1, by omega⟩
          rw [evalPtr.eq_def]
          dsimp only
          rw [if_neg hp1, if_neg (by omega : ¬ p = 0)]
          have harrow : (if σ (f.node p).var = true
              then (f.node p).high else (f.node p).low) = c := by
            rw [hσ]
            simp
          rw [harrow]
          exact heval σ hag fe' (by omega)

theorem nonfalse_size (f : Bdd) (hwf : BddWF f) (hnf : f.isFalse = false) :
    2 ≤ f.size := by
  have h1 : f.nodes.length ≠ 1 := by
    simpa [Bdd.isFalse] using hnf
  have := hwf.1
  unfold Bdd.size at this ⊢
  omega

/-- C9: on every well-formed non-`false` diagram the pick-cube walk reaches
the `true` terminal within `numVars` iterations (it visits at most one node
per level of the variable order): fuel `numVars` suffices for the loop to
produce a result. -/
theorem C9_pickcube_linear_termination (f : Bdd) (hwf : BddWF f)
    (hnf : f.isFalse = false) :
    ∃ a, pickLoop f f.numVars f.root (List.replicate f.numVars OptBool.None)
      = some a := by
  have hsz2 := nonfalse_size f hwf hnf
  obtain ⟨a, hloop, -⟩ := pickLoop_spec f hwf f.numVars f.root
    (List.replicate f.numVars OptBool.None)
    (by unfold Bdd.root Bdd.size at *; omega)
    (by unfold Bdd.root Bdd.size at *; omega)
    (List.length_replicate f.numVars OptBool.None)
    (Nat.sub_le _ _)
  exact ⟨a, hloop⟩

/-- Witness for C9 at `x0 ∧ x1` over three variables. -/
theorem C9_pickcube_linear_termination_witness :
    ∃ a, pickLoop andBdd andBdd.numVars andBdd.root
      (List.replicate andBdd.numVars OptBool.None) = some a :=
  C9_pickcube_linear_termination andBdd (by decide) (by decide)

/-- C3: on every well-formed diagram that is not identically false,
`bdd_pickcube` returns the assignment built by the walk (all variables
initialized to don't-care; at each node, `False` and move low when the low
successor is not the `false` terminal, else `True` and move high — this is
the definition of `pickLoop`): every variable whose node is not visited by
the walk stays don't-care, and every total assignment agreeing with the
cube evaluates the diagram to `true`, so the cube satisfies the diagram. -/
theorem C3_pickcube_satisfies (f : Bdd) (hwf : BddWF f)
    (hnf : f.isFalse = false) :
    ∃ a, bdd_pickcube f = { data := some a, len := a.length } ∧
      a.length = f.numVars ∧
      (∀ i, (∀ q, Visits f f.root q → (f.node q).var ≠ i) →
        a.getD i OptBool.None = OptBool.None) ∧
      (∀ σ, Agrees a σ → f.eval σ = some true) := by
  have hsz2 := nonfalse_size f hwf hnf
  obtain ⟨a, hloop, hlen, -, hch, heval⟩ := pickLoop_spec f hwf f.numVars
    f.root (List.replicate f.numVars OptBool.None)
    (by unfold Bdd.root Bdd.size at *; omega)
    (by unfold Bdd.root Bdd.size at *; omega)
    (List.length_replicate f.numVars OptBool.None)
    (Nat.sub_le _ _)
  refine ⟨a, ?_, hlen, ?_, ?_⟩
  · unfold bdd_pickcube
    rw [if_neg (by simp [hnf]), hloop]
  · intro i hnov
    by_contra hne
    have hne' : a.getD i OptBool.None
        ≠ (List.replicate f.numVars OptBool.None).getD i OptBool.None := by
      rw [getD_replicate_none]
      exact hne
    obtain ⟨q, hq, hqv⟩ := hch i hne'
    exact hnov q hq hqv
  · intro σ hag
    unfold Bdd.eval
    exact heval σ hag f.size (by unfold Bdd.root Bdd.size at *; omega)

/-- Witness for C3 at the literal `x0` over two variables. -/
theorem C3_pickcube_satisfies_witness :
    ∃ a, bdd_pickcube litBdd = { data := some a, len := a.length } ∧
      a.length = litBdd.numVars ∧
      (∀ i, (∀ q, Visits litBdd litBdd.root q → (litBdd.node q).var ≠ i) →
        a.getD i OptBool.None = OptBool.None) ∧
      (∀ σ, Agrees a σ → litBdd.eval σ = some true) :=
  C3_pickcube_satisfies litBdd (by decide) (by decide)

/-- C10: on the constant-`true` diagram (the only well-formed diagram of
size 2; it evaluates to `true` everywhere) `bdd_pickcube` returns a
non-null buffer of length `numVars` with every entry don't-care; more
generally, on every well-formed non-`false` diagram the returned buffer is
non-null with length `numVars`. -/
theorem C10_pickcube_true_and_nonfalse (f : Bdd) (hwf : BddWF f) :
    (f.size = 2 →
      (∀ σ, f.eval σ = some true) ∧
      bdd_pickcube f
        = { data := some (List.replicate f.numVars OptBool.None),
            len := f.numVars }) ∧
    (f.isFalse = false →
      ∃ a, (bdd_pickcube f).data = some a ∧
        (bdd_pickcube f).len = f.numVars) := by
  constructor
  · intro hs2
    have hroot : f.root = 1 := by
      unfold Bdd.root
      unfold Bdd.size at hs2
      omega
    have hnf : f.isFalse = false := by
      unfold Bdd.isFalse
      unfold Bdd.size at hs2
      simp [hs2]
    constructor
    · intro σ
      unfold Bdd.eval
      rw [hroot]
      exact evalPtr_at_one f σ f.size
    · unfold bdd_pickcube
      rw [if_neg (by simp [hnf]), hroot, pickLoop_at_one]
      simp
  · intro hnf
    have hsz2 := nonfalse_size f hwf hnf
    obtain ⟨a, hloop, hlen, -, -, -⟩ := pickLoop_spec f hwf f.numVars
      f.root (List.replicate f.numVars OptBool.None)
      (by unfold Bdd.root Bdd.size at *; omega)
      (by unfold Bdd.root Bdd.size at *; omega)
      (List.length_replicate f.numVars OptBool.None)
      (Nat.sub_le _ _)
    refine ⟨a, ?_, ?_⟩
    · unfold bdd_pickcube
      rw [if_neg (by simp [hnf]), hloop]
    · unfold bdd_pickcube
      rw [if_neg (by simp [hnf]), hloop]
      exact hlen

/-- Witness for C10 at the constant-`true` diagram over two variables. -/
theorem C10_pickcube_true_and_nonfalse_witness :
    bdd_pickcube trueBdd2
      = { data := some (List.replicate trueBdd2.numVars OptBool.None),
          len := trueBdd2.numVars } :=
  ((C10_pickcube_true_and_nonfalse trueBdd2 (by decide)).1 (by decide)).2

/-- C4: every assignment produced by `bdd_pickcube` has length `numVars`,
the variable count of the universe used to build the source diagram.  "An
assignment produced" is a return whose data pointer is non-null; on the
identically-false diagram the extractor returns the designated empty
no-result value instead of an assignment, so that case produces no
assignment. -/
theorem C4_assignment_length (f : Bdd) (hwf : BddWF f) (a : List OptBool)
    (h : (bdd_pickcube f).data = some a) :
    a.length = f.numVars ∧ (bdd_pickcube f).len = f.numVars := by
  cases hnf : f.isFalse with
  | true =>
    unfold bdd_pickcube at h
    rw [if_pos hnf] at h
    simp at h
  | false =>
    have hsz2 := nonfalse_size f hwf hnf
    obtain ⟨a', hloop, hlen, -, -, -⟩ := pickLoop_spec f hwf f.numVars
      f.root (List.replicate f.numVars OptBool.None)
      (by unfold Bdd.root Bdd.size at *; omega)
      (by unfold Bdd.root Bdd.size at *; omega)
      (List.length_replicate f.numVars OptBool.None)
      (Nat.sub_le _ _)
    unfold bdd_pickcube at h ⊢
    rw [if_neg (by simp [hnf]), hloop] at h ⊢
    dsimp only at h
    injection h with h
    subst h
    exact ⟨hlen, hlen⟩

/-- Witness for C4 at the literal `x0` over two variables, whose produced
assignment is `[True, None]` of length `numVars = 2`. -/
theorem C4_assignment_length_witness :
    ([OptBool.True, OptBool.None] : List OptBool).length = litBdd.numVars ∧
    (bdd_pickcube litBdd).len = litBdd.numVars :=
  C4_assignment_length litBdd (by decide) [OptBool.True, OptBool.None]
    (by decide)

end LibBddFfi
